import Mathlib

/-!
Shallow embedding of the Metropolis spin-flip simulator from the notebook
`Notebooks2018/Neel.ipynb` (the only algorithmic cell sequence of the repo:
parameter definitions, `deltaE`, random spin initialisation, the observable
arrays `M`/`MS` with their seeded first rows, and the per-step loop).

Modelling conventions:
* numpy 2-D int arrays of shape (N, N) become functions `Fin N → Fin N → ℤ`;
  the fixed shape of the array is carried by the type.
* Python floats become `ℚ` (every claim is about the exact formulas, whose
  inputs here are small dyadic values, not about rounding).
* `numpy.exp` is an external library routine; it is modelled as an
  uninterpreted parameter `mexp : ℚ → ℚ` threaded through the definitions.
  No claim depends on its values.
* Randomness (the uniform site picks and the uniform draw in [0,1)) is
  modelled by passing the drawn values in explicitly.
* numpy index errors and shape-mismatch errors become `Option.none`:
  writing `M[idx] = v` is `setIdx`, which fails out of bounds exactly as
  numpy raises `IndexError`; the element-wise product of two 1-D arrays is
  `broadcastMul`, which follows numpy 1-D broadcasting (equal lengths, or
  one side of length 1) and fails otherwise, as numpy raises `ValueError`.
-/

namespace Neel

/-- Slice `spins.flatten()[::2]`: the elements of a list at even positions
(a stride-2 slice starting at index 0). -/
def everyOther {α : Type} : List α → List α
  | [] => []
  | [x] => [x]
  | x :: _ :: xs => x :: everyOther xs

/-- Slice `l[::2]` — elements at even indices of `l`. -/
def evensIdx {α : Type} (l : List α) : List α := everyOther l

/-- Slice `l[1::2]` — elements at odd indices of `l`. -/
def oddsIdx {α : Type} (l : List α) : List α := everyOther (l.drop 1)

/-- Element-wise product of two 1-D integer arrays under numpy's 1-D
broadcasting rule: defined when the lengths agree, or when one operand has
length 1 (which is then broadcast); otherwise numpy raises a shape-mismatch
`ValueError`, modelled as `none`. -/
def broadcastMul (xs ys : List ℤ) : Option (List ℤ) :=
  if xs.length = ys.length then some (List.zipWith (· * ·) xs ys)
  else if xs.length = 1 then some (ys.map (fun y => xs.headI * y))
  else if ys.length = 1 then some (xs.map (fun x => x * ys.headI))
  else none

/-- Mean `numpy.mean` of a 1-D array, as exact rational arithmetic. All uses in
this development are on nonempty lists (numpy returns NaN on the empty
array; no claim exercises that case). -/
def listMean (l : List ℚ) : ℚ := l.sum / l.length

/-- Flattening `spins.flatten()`: row-major (C-order) flattening of the N×N array. -/
def flattenL (N : ℕ) (S : Fin N → Fin N → ℤ) : List ℤ :=
  ((List.finRange N).map (fun i => (List.finRange N).map (fun j => S i j))).flatten

/-- Mean `numpy.mean(spins)` on the N×N array: mean of all entries. -/
def magnetization (N : ℕ) (S : Fin N → Fin N → ℤ) : ℚ :=
  listMean ((flattenL N S).map (fun z : ℤ => (z : ℚ)))

/-- Value `-numpy.mean(spins.flatten()[::2] * spins.flatten()[1::2])`, the
staggered order parameter of the notebook. `none` when the element-wise
product raises a shape mismatch. (The per-step line wraps this value in one
more `numpy.mean`, which on a scalar is the identity.) -/
def staggeredOP (N : ℕ) (S : Fin N → Fin N → ℤ) : Option ℚ :=
  (broadcastMul (evensIdx (flattenL N S)) (oddsIdx (flattenL N S))).map
    (fun l => - listMean (l.map (fun z : ℤ => (z : ℚ))))

/-- Python's `k % N` on integers for positive `N`, landing in `Fin N`.
`Int.emod` agrees with Python's `%` for a positive modulus. -/
def wrapIdx (N : ℕ) (hN : 0 < N) (k : ℤ) : Fin N :=
  ⟨(k % (N : ℤ)).toNat, by
    have hNZ : (N : ℤ) ≠ 0 := by exact_mod_cast hN.ne'
    have h1 : 0 ≤ k % (N : ℤ) := Int.emod_nonneg k hNZ
    have h2 : k % (N : ℤ) < (N : ℤ) := Int.emod_lt_of_pos k (by exact_mod_cast hN)
    omega⟩

/-- The notebook's `deltaE(S, i, j)`:
`Enow = -S[i,j]*(J*(S[(i+1)%N,j]+S[(i-1)%N,j]+S[i,(j+1)%N]+S[i,(j-1)%N])+B)`
and the function returns `-2*Enow`. Pure: it only reads the lattice. -/
def deltaE (J B : ℚ) {N : ℕ} (S : Fin N → Fin N → ℤ) (i j : Fin N) : ℚ :=
  let Sij : ℤ := S i j
  let nsum : ℤ :=
    S (wrapIdx N i.pos ((i : ℤ) + 1)) j + S (wrapIdx N i.pos ((i : ℤ) - 1)) j +
      S i (wrapIdx N i.pos ((j : ℤ) + 1)) + S i (wrapIdx N i.pos ((j : ℤ) - 1))
  let Enow : ℚ := -(Sij : ℚ) * (J * (nsum : ℚ) + B);
  -2 * Enow

/-- Assignment `spins[i, j] = -spins[i, j]`: the lattice with exactly the spin at
(i, j) negated and every other cell unchanged. -/
def flipAt {N : ℕ} (S : Fin N → Fin N → ℤ) (i j : Fin N) : Fin N → Fin N → ℤ :=
  fun a b => if a = i ∧ b = j then - S a b else S a b

/-- The loop's acceptance test
`(dE < 0.0) or (numpy.random.random() < numpy.exp(-dE / float(kBT)))`,
with the drawn uniform `u` passed in and `numpy.exp` as `mexp`. -/
def acceptFlip (J B kBT : ℚ) (mexp : ℚ → ℚ) {N : ℕ} (S : Fin N → Fin N → ℤ)
    (i j : Fin N) (u : ℚ) : Bool :=
  let dE := deltaE J B S i j
  decide (dE < 0) || decide (u < mexp (-dE / kBT))

/-- One flip attempt on the lattice: flip (i, j) when accepted, else leave
the lattice unchanged. -/
def stepSpins (J B kBT : ℚ) (mexp : ℚ → ℚ) {N : ℕ} (S : Fin N → Fin N → ℤ)
    (i j : Fin N) (u : ℚ) : Fin N → Fin N → ℤ :=
  if acceptFlip J B kBT mexp S i j u then flipAt S i j else S

/-- Line `spins = numpy.where(numpy.random.random((N, N)) > 0.5, 1, -1)` with the
drawn uniforms `r`. -/
def spinsInit (N : ℕ) (r : Fin N → Fin N → ℚ) : Fin N → Fin N → ℤ :=
  fun i j => if r i j > 1/2 then 1 else -1

/-- The lattice after `k` flip attempts starting from the random
initial lattice, with the per-step random draws `rand k = (i, j, u)`. -/
def iterSpins (J B kBT : ℚ) (mexp : ℚ → ℚ) (N : ℕ) (r : Fin N → Fin N → ℚ)
    (rand : ℕ → Fin N × Fin N × ℚ) : ℕ → Fin N → Fin N → ℤ
  | 0 => spinsInit N r
  | k + 1 =>
      let d := rand k;
      stepSpins J B kBT mexp (iterSpins J B kBT mexp N r rand k) d.1 d.2.1 d.2.2

/-- The notebook's mutable cell state: the `spins` array and the two
observable arrays `M` and `MS` of (step index, value) rows. The shape of
`M`/`MS` is `(Steps, 2)`; rows are `(ℚ × ℚ)` pairs. -/
structure SimState (N : ℕ) where
  spins : Fin N → Fin N → ℤ
  M : List (ℚ × ℚ)
  MS : List (ℚ × ℚ)
  deriving DecidableEq

/-- Assignment `l[k] = v` on a numpy array: in-place update, raising `IndexError`
(`none`) when `k` is out of bounds. -/
def setIdx {α : Type} (l : List α) (k : ℕ) (v : α) : Option (List α) :=
  if k < l.length then some (l.set k v) else none

/-- The notebook's initialisation cell: random spins, the two observable
arrays allocated as `numpy.zeros((Steps, 2))`, and their first rows seeded
with `M[0] = 0, mean(spins)` and
`MS[0] = 0, -mean(spins.flatten()[::2] * spins.flatten()[1::2])`.
With `Steps = 0` the `M[0]` assignment raises `IndexError` (`none`); with a
lattice whose even/odd slices mismatch, the `MS[0]` line raises (`none`). -/
def initState (N Steps : ℕ) (r : Fin N → Fin N → ℚ) : Option (SimState N) :=
  let spins := spinsInit N r;
  (setIdx (List.replicate Steps ((0 : ℚ), (0 : ℚ))) 0 (0, magnetization N spins)).bind
    (fun M0 => (staggeredOP N spins).bind
      (fun s0 => (setIdx (List.replicate Steps ((0 : ℚ), (0 : ℚ))) 0 (0, s0)).bind
        (fun MS0 => some ⟨spins, M0, MS0⟩)))

/-- One iteration of the notebook's loop body at index `idx` with the
drawn site `(i, j)` and uniform `u`: the flip attempt, then
`M[idx] = idx, mean(spins)` and
`MS[idx] = idx, mean(-mean(flatten[::2] * flatten[1::2]))` (the outer
`mean` of a scalar is the identity). -/
def stepState (J B kBT : ℚ) (mexp : ℚ → ℚ) {N : ℕ} (st : SimState N)
    (idx : ℕ) (i j : Fin N) (u : ℚ) : Option (SimState N) :=
  let spins' := stepSpins J B kBT mexp st.spins i j u;
  (setIdx st.M idx ((idx : ℚ), magnetization N spins')).bind
    (fun M' => (staggeredOP N spins').bind
      (fun s => (setIdx st.MS idx ((idx : ℚ), s)).bind
        (fun MS' => some ⟨spins', M', MS'⟩)))

/-- The first `m` iterations of the loop (`for idx in range(m)`), from
state `st`. -/
def runSteps (J B kBT : ℚ) (mexp : ℚ → ℚ) {N : ℕ}
    (rand : ℕ → Fin N × Fin N × ℚ) (st : SimState N) (m : ℕ) : Option (SimState N) :=
  (List.range m).foldlM
    (fun s idx => let d := rand idx; stepState J B kBT mexp s idx d.1 d.2.1 d.2.2) st

/-- The full simulation cell: initialisation followed by the loop over
`range(Steps)`. -/
def runNeel (J B kBT : ℚ) (mexp : ℚ → ℚ) (N Steps : ℕ) (r : Fin N → Fin N → ℚ)
    (rand : ℕ → Fin N × Fin N × ℚ) : Option (SimState N) :=
  (initState N Steps r).bind (fun st => runSteps J B kBT mexp rand st Steps)

/-! Definitions transcribed from the specification's words, to be compared
with the definitions transcribed from the code. -/

/-- The energy delta exactly as claim C1 words it: "−2 · ( S[i,j] · ( J·(S[(i+1)
mod N, j] + S[(i−1) mod N, j] + S[i, (j+1) mod N] + S[i, (j−1) mod N]) + B ) )". -/
def deltaEClaimC1 (J B : ℚ) {N : ℕ} (S : Fin N → Fin N → ℤ) (i j : Fin N) : ℚ :=
  -2 * ((S i j : ℚ) *
    (J * ((S (wrapIdx N i.pos ((i : ℤ) + 1)) j + S (wrapIdx N i.pos ((i : ℤ) - 1)) j +
        S i (wrapIdx N i.pos ((j : ℤ) + 1)) + S i (wrapIdx N i.pos ((j : ℤ) - 1)) : ℤ) : ℚ) + B))

/-- The flip attempt as the spec words it: accept when the delta is negative
or the drawn uniform is below the Boltzmann factor; on acceptance exactly the
chosen site's spin is negated and every other cell is unchanged; on rejection
the lattice is unchanged. -/
def stepSpinsSpec (J B kBT : ℚ) (mexp : ℚ → ℚ) {N : ℕ} (S : Fin N → Fin N → ℤ)
    (i j : Fin N) (u : ℚ) : Fin N → Fin N → ℤ :=
  let delta := deltaE J B S i j;
  if delta < 0 ∨ u < mexp (-delta / kBT) then
    fun a b => if a = i ∧ b = j then - S a b else S a b
  else S

/-- The spec's mean magnetization: the arithmetic mean of all N×N lattice
values. -/
def specMeanMag (N : ℕ) (S : Fin N → Fin N → ℤ) : ℚ :=
  (∑ i : Fin N, ∑ j : Fin N, (S i j : ℚ)) / ((N : ℚ) * (N : ℚ))

/-- The spec's staggered correlation: the negative of the mean of the
element-wise products of the spins at even-indexed positions with the spins
at odd-indexed positions of the row-major flattening (N·N/2 products). -/
def specStaggered (N : ℕ) (S : Fin N → Fin N → ℤ) : ℚ :=
  let f := flattenL N S;
  -((∑ k ∈ Finset.range (N * N / 2), ((f.getD (2 * k) 0 * f.getD (2 * k + 1) 0 : ℤ) : ℚ)) /
    ((N * N / 2 : ℕ) : ℚ))

/-! Concrete inputs used by counterexamples and witnesses. -/

/-- Uniform draws all equal to 1, giving the all-(+1) initial lattice. -/
def rOne (N : ℕ) : Fin N → Fin N → ℚ := fun _ _ => 1

/-- The all-(+1) N×N lattice. -/
def latOne (N : ℕ) : Fin N → Fin N → ℤ := fun _ _ => 1

/-- A stand-in for `numpy.exp` that always returns 0 (so that a
non-energy-lowering flip is always rejected in the concrete runs). -/
def mexp0 : ℚ → ℚ := fun _ => 0

/-- Per-step draws: always site (0, 0) and uniform 0. -/
def randZ : ℕ → Fin 2 × Fin 2 × ℚ := fun _ => (0, 0, 0)

/-- The state after the concrete 1-step run on the 2×2 all-(+1) lattice
with `J = B = -2`, `kBT = 3` (the step-0 flip at (0,0) is accepted since
its delta is −20). -/
def stRun1 : SimState 2 :=
  ⟨flipAt (spinsInit 2 (rOne 2)) 0 0, [((0 : ℚ), (1 : ℚ)/2)], [((0 : ℚ), (0 : ℚ))]⟩

/-- The seeded initial state of the concrete 2-step run. -/
def stInit2 : SimState 2 :=
  ⟨spinsInit 2 (rOne 2), [(0, 1), (0, 0)], [(0, -1), (0, 0)]⟩

/-- The concrete 2-step run after step 0 (flip at (0,0) accepted). -/
def stMid2 : SimState 2 :=
  ⟨flipAt (spinsInit 2 (rOne 2)) 0 0, [(0, 1/2), (0, 0)], [(0, 0), (0, 0)]⟩

/-- The concrete 2-step run after step 1 (second flip attempt rejected:
its delta is +20 and the drawn uniform 0 is not below `mexp0 _ = 0`). -/
def stRun2 : SimState 2 :=
  ⟨flipAt (spinsInit 2 (rOne 2)) 0 0, [(0, 1/2), (1, 1/2)], [(0, 0), (1, 0)]⟩

/-! Helper lemmas about the embedded operations. -/

theorem everyOther_length {α : Type} (l : List α) :
    (everyOther l).length = (l.length + 1) / 2 := by
  induction l using everyOther.induct <;> (simp_all [everyOther]; try omega)

theorem everyOther_getElem {α : Type} (l : List α) (k : ℕ) :
    (everyOther l)[k]? = l[2 * k]? := by
  induction l using everyOther.induct generalizing k with
  | case1 => simp [everyOther]
  | case2 x =>
      rcases k with _ | k
      · rfl
      · simp [everyOther, Nat.mul_succ]
  | case3 x y xs ih =>
      rcases k with _ | k
      · simp [everyOther]
      · rw [Nat.mul_succ]
        simp [everyOther, ih]

theorem evensIdx_length {α : Type} (l : List α) :
    (evensIdx l).length = (l.length + 1) / 2 := everyOther_length l

theorem oddsIdx_length {α : Type} (l : List α) :
    (oddsIdx l).length = l.length / 2 := by
  rcases l with _ | ⟨x, xs⟩
  · simp [oddsIdx, everyOther]
  · rw [oddsIdx, List.drop_one, List.tail_cons, everyOther_length]
    simp

theorem evensIdx_getElem {α : Type} (l : List α) (k : ℕ) :
    (evensIdx l)[k]? = l[2 * k]? := everyOther_getElem l k

theorem oddsIdx_getElem {α : Type} (l : List α) (k : ℕ) :
    (oddsIdx l)[k]? = l[2 * k + 1]? := by
  rw [oddsIdx, everyOther_getElem, List.getElem?_drop, Nat.add_comm]

theorem setIdx_eq_some {α : Type} {l l' : List α} {k : ℕ} {v : α} :
    setIdx l k v = some l' ↔ k < l.length ∧ l' = l.set k v := by
  unfold setIdx
  split_ifs with h <;> simp [h, eq_comm]

theorem runSteps_zero (J B kBT : ℚ) (mexp : ℚ → ℚ) {N : ℕ}
    (rand : ℕ → Fin N × Fin N × ℚ) (st : SimState N) :
    runSteps J B kBT mexp rand st 0 = some st := rfl

theorem runSteps_succ (J B kBT : ℚ) (mexp : ℚ → ℚ) {N : ℕ}
    (rand : ℕ → Fin N × Fin N × ℚ) (st : SimState N) (m : ℕ) :
    runSteps J B kBT mexp rand st (m + 1) =
      (runSteps J B kBT mexp rand st m).bind
        (fun s => stepState J B kBT mexp s m (rand m).1 (rand m).2.1 (rand m).2.2) := by
  unfold runSteps
  rw [List.range_succ, List.foldlM_append]
  rcases (List.range m).foldlM
      (fun s idx => let d := rand idx; stepState J B kBT mexp s idx d.1 d.2.1 d.2.2) st with _ | s
  · rfl
  · simp

theorem stepState_inv {J B kBT : ℚ} {mexp : ℚ → ℚ} {N : ℕ} {st st' : SimState N}
    {idx : ℕ} {i j : Fin N} {u : ℚ}
    (h : stepState J B kBT mexp st idx i j u = some st') :
    st'.spins = stepSpins J B kBT mexp st.spins i j u ∧
    st'.M.length = st.M.length ∧ st'.MS.length = st.MS.length ∧
    idx < st.M.length ∧ idx < st.MS.length ∧
    st'.M[idx]? = some ((idx : ℚ), magnetization N st'.spins) ∧
    (∃ s, staggeredOP N st'.spins = some s ∧ st'.MS[idx]? = some ((idx : ℚ), s)) ∧
    ∀ k, k ≠ idx → st'.M[k]? = st.M[k]? ∧ st'.MS[k]? = st.MS[k]? := by
  simp only [stepState, Option.bind_eq_some] at h
  obtain ⟨M', hM, s, hs, MS', hMS, hmk⟩ := h
  rw [setIdx_eq_some] at hM hMS
  obtain ⟨hMlt, rfl⟩ := hM
  obtain ⟨hMSlt, rfl⟩ := hMS
  injection hmk with hmk
  subst hmk
  refine ⟨rfl, by simp, by simp, hMlt, hMSlt, ?_, ⟨s, hs, ?_⟩, ?_⟩
  · simp [List.getElem?_set_self hMlt]
  · simp [List.getElem?_set_self hMSlt]
  · intro k hk
    constructor <;> simp [List.getElem?_set_ne (fun hne => hk hne.symm)]

theorem flattenL_length (N : ℕ) (S : Fin N → Fin N → ℤ) :
    (flattenL N S).length = N * N := by
  simp [flattenL, List.length_flatten, List.map_map, Function.comp_def, List.map_const',
    List.sum_replicate, smul_eq_mul]

theorem flattenL_map_sum (N : ℕ) (S : Fin N → Fin N → ℤ) :
    ((flattenL N S).map (fun z : ℤ => (z : ℚ))).sum = ∑ i : Fin N, ∑ j : Fin N, (S i j : ℚ) := by
  rw [Fin.sum_univ_def, flattenL, List.map_flatten, List.sum_flatten, List.map_map,
    List.map_map]
  refine congrArg List.sum (List.map_congr_left ?_)
  intro i _
  simp only [Function.comp_def, List.map_map]
  exact (Fin.sum_univ_def _).symm

theorem list_sum_eq_range (l : List ℚ) :
    l.sum = ∑ k ∈ Finset.range l.length, l.getD k 0 := by
  induction l with
  | nil => simp
  | cons x xs ih =>
      rw [List.sum_cons, ih, List.length_cons, Finset.sum_range_succ']
      simp [add_comm]

/-- The code's mean magnetization is the spec's arithmetic mean of all
lattice values. -/
theorem magnetization_eq_spec (N : ℕ) (S : Fin N → Fin N → ℤ) :
    magnetization N S = specMeanMag N S := by
  unfold magnetization specMeanMag listMean
  rw [flattenL_map_sum]
  congr 1
  rw [List.length_map, flattenL_length]
  push_cast
  ring

/-- For an even side length the even/odd slices have equal length `N·N/2`,
the element-wise product is defined, and the code's staggered order
parameter is the spec's negative mean of the index-pair products. -/
theorem staggeredOP_eq_spec (N : ℕ) (hE : Even N) (S : Fin N → Fin N → ℤ) :
    staggeredOP N S = some (specStaggered N S) := by
  obtain ⟨m, hm⟩ : ∃ m, N * N = m + m := hE.mul_right N
  have hf : (flattenL N S).length = N * N := flattenL_length N S
  have hev : (evensIdx (flattenL N S)).length = m := by
    rw [evensIdx_length, hf, hm]; omega
  have hod : (oddsIdx (flattenL N S)).length = m := by
    rw [oddsIdx_length, hf, hm]; omega
  have hm2 : N * N / 2 = m := by omega
  have hzl : (List.zipWith (· * ·) (evensIdx (flattenL N S)) (oddsIdx (flattenL N S))).length
      = m := by
    rw [List.length_zipWith, hev, hod, Nat.min_self]
  have key : - listMean ((List.zipWith (· * ·) (evensIdx (flattenL N S))
      (oddsIdx (flattenL N S))).map (fun z : ℤ => (z : ℚ))) = specStaggered N S := by
    unfold specStaggered listMean
    rw [neg_inj]
    congr 1
    case _ =>
      rw [list_sum_eq_range, List.length_map, hzl, hm2]
      apply Finset.sum_congr rfl
      intro k hk
      have hkm : k < m := Finset.mem_range.mp hk
      have h2k : 2 * k < (flattenL N S).length := by omega
      have h2k1 : 2 * k + 1 < (flattenL N S).length := by omega
      rw [List.getD_eq_getElem?_getD, List.getElem?_map, List.getElem?_zipWith',
        evensIdx_getElem, oddsIdx_getElem,
        List.getElem?_eq_getElem h2k, List.getElem?_eq_getElem h2k1,
        List.getD_eq_getElem?_getD, List.getD_eq_getElem?_getD,
        List.getElem?_eq_getElem h2k, List.getElem?_eq_getElem h2k1]
      simp
    case _ =>
      rw [List.length_map, hzl, hm2]
  unfold staggeredOP broadcastMul
  rw [if_pos (hev.trans hod.symm)]
  exact congrArg some key

/-- For a lattice with at least two rows, the `(i+1) mod N` neighbor row
differs from row `i`. -/
theorem wrapIdx_succ_ne {N : ℕ} (hN : 2 ≤ N) (i : Fin N) :
    wrapIdx N i.pos ((i : ℤ) + 1) ≠ i := by
  have hi := i.isLt
  intro h
  have hv := congrArg Fin.val h
  simp only [wrapIdx] at hv
  rcases Nat.lt_or_ge (i.val + 1) N with hlt | hge
  · rw [Int.emod_eq_of_lt (by omega) (by exact_mod_cast hlt)] at hv
    omega
  · have hN1 : i.val + 1 = N := by omega
    have he : (i : ℤ) + 1 = (N : ℤ) := by push_cast [← hN1]; ring
    rw [he, Int.emod_self] at hv
    omega

/-- For a lattice with at least two rows, the `(i-1) mod N` neighbor row
differs from row `i`. -/
theorem wrapIdx_pred_ne {N : ℕ} (hN : 2 ≤ N) (i : Fin N) :
    wrapIdx N i.pos ((i : ℤ) - 1) ≠ i := by
  have hi := i.isLt
  intro h
  have hv := congrArg Fin.val h
  simp only [wrapIdx] at hv
  rcases Nat.eq_zero_or_pos i.val with h0 | hpos
  · have hz : (i : ℤ) = 0 := by exact_mod_cast h0
    have he : ((i : ℤ) - 1) % (N : ℤ) = (N : ℤ) - 1 :=
      calc ((i : ℤ) - 1) % (N : ℤ)
          = ((N : ℤ) - 1 + (N : ℤ) * (-1)) % (N : ℤ) := by rw [hz]; congr 1; ring
        _ = ((N : ℤ) - 1) % (N : ℤ) := by rw [Int.add_mul_emod_self_left]
        _ = (N : ℤ) - 1 := Int.emod_eq_of_lt (by omega) (by omega)
    rw [he] at hv
    omega
  · have he : ((i : ℤ) - 1) % (N : ℤ) = (i : ℤ) - 1 :=
      Int.emod_eq_of_lt (by omega) (by omega)
    rw [he] at hv
    omega

theorem flipAt_self {N : ℕ} (S : Fin N → Fin N → ℤ) (i j : Fin N) :
    flipAt S i j i j = - S i j := by
  simp [flipAt]

theorem flipAt_ne_fst {N : ℕ} (S : Fin N → Fin N → ℤ) (i j a b : Fin N) (h : a ≠ i) :
    flipAt S i j a b = S a b := by
  simp only [flipAt]
  rw [if_neg]
  exact fun hc => h hc.1

theorem flipAt_ne_snd {N : ℕ} (S : Fin N → Fin N → ℤ) (i j a b : Fin N) (h : b ≠ j) :
    flipAt S i j a b = S a b := by
  simp only [flipAt]
  rw [if_neg]
  exact fun hc => h hc.2

theorem initState_inv {N Steps : ℕ} {r : Fin N → Fin N → ℚ} {st0 : SimState N}
    (h : initState N Steps r = some st0) :
    st0.spins = spinsInit N r ∧ 0 < Steps ∧
    st0.M.length = Steps ∧ st0.MS.length = Steps ∧
    st0.M[0]? = some (0, magnetization N (spinsInit N r)) ∧
    ∃ s, staggeredOP N (spinsInit N r) = some s ∧ st0.MS[0]? = some ((0 : ℚ), s) := by
  simp only [initState, Option.bind_eq_some] at h
  obtain ⟨M0, hM, s, hs, MS0, hMS, hmk⟩ := h
  rw [setIdx_eq_some] at hM hMS
  obtain ⟨hMlt, rfl⟩ := hM
  obtain ⟨hMSlt, rfl⟩ := hMS
  injection hmk with hmk
  subst hmk
  simp only [List.length_replicate] at hMlt hMSlt
  refine ⟨rfl, hMlt, by simp, by simp, ?_, ⟨s, hs, ?_⟩⟩
  · simp [List.getElem?_set_self, hMlt]
  · simp [List.getElem?_set_self, hMSlt]

/-- Invariant of the loop: lengths of the observable arrays are unchanged,
and each executed step `k` has stamped its own row with step index `k`. -/
theorem runSteps_inv {J B kBT : ℚ} {mexp : ℚ → ℚ} {N : ℕ}
    {rand : ℕ → Fin N × Fin N × ℚ} (st : SimState N) :
    ∀ m {st' : SimState N}, runSteps J B kBT mexp rand st m = some st' →
      st'.M.length = st.M.length ∧ st'.MS.length = st.MS.length ∧
      ∀ k, k < m →
        (∃ y, st'.M[k]? = some ((k : ℚ), y)) ∧ ∃ y, st'.MS[k]? = some ((k : ℚ), y) := by
  intro m
  induction m with
  | zero =>
      intro st' h
      rw [runSteps_zero] at h
      injection h with h
      subst h
      exact ⟨rfl, rfl, fun k hk => absurd hk (Nat.not_lt_zero k)⟩
  | succ m ih =>
      intro st' h
      rw [runSteps_succ] at h
      rw [Option.bind_eq_some] at h
      obtain ⟨s0, hs0, hstep⟩ := h
      obtain ⟨hL1, hL2, hw⟩ := ih hs0
      obtain ⟨_, hM, hMS, _, _, hMidx, ⟨s, _, hMSidx⟩, hpres⟩ := stepState_inv hstep
      refine ⟨hM.trans hL1, hMS.trans hL2, ?_⟩
      intro k hk
      rcases Nat.lt_or_ge k m with hkm | hkm
      · have hne : k ≠ m := by omega
        obtain ⟨hpm, hpms⟩ := hpres k hne
        obtain ⟨⟨y1, hy1⟩, ⟨y2, hy2⟩⟩ := hw k hkm
        exact ⟨⟨y1, by rw [hpm, hy1]⟩, ⟨y2, by rw [hpms, hy2]⟩⟩
      · have hkm' : k = m := by omega
        subst hkm'
        exact ⟨⟨_, hMidx⟩, ⟨s, hMSidx⟩⟩

/-- Rows below `m` are never touched again by steps `m, m+1, …`: the
observable arrays are write-once per index over the loop. -/
theorem runSteps_stable {J B kBT : ℚ} {mexp : ℚ → ℚ} {N : ℕ}
    {rand : ℕ → Fin N × Fin N × ℚ} (st : SimState N) :
    ∀ m m' {s1 s2 : SimState N}, m ≤ m' →
      runSteps J B kBT mexp rand st m = some s1 →
      runSteps J B kBT mexp rand st m' = some s2 →
      ∀ k, k < m → s2.M[k]? = s1.M[k]? ∧ s2.MS[k]? = s1.MS[k]? := by
  intro m m'
  induction m' with
  | zero =>
      intro s1 s2 hle h1 h2 k hk
      have hm : m = 0 := by omega
      subst hm
      exact absurd hk (Nat.not_lt_zero k)
  | succ m' ih =>
      intro s1 s2 hle h1 h2 k hk
      rcases Nat.lt_or_ge m (m' + 1) with hlt | hge
      · rw [runSteps_succ] at h2
        rw [Option.bind_eq_some] at h2
        obtain ⟨smid, hsmid, hstep⟩ := h2
        obtain ⟨hm1, hm2⟩ := ih (by omega) h1 hsmid k hk
        obtain ⟨_, _, _, _, _, _, _, hpres⟩ := stepState_inv hstep
        obtain ⟨hp1, hp2⟩ := hpres k (by omega)
        exact ⟨hp1.trans hm1, hp2.trans hm2⟩
      · have hm : m = m' + 1 := by omega
        subst hm
        rw [h1] at h2
        injection h2 with h2
        subst h2
        exact ⟨rfl, rfl⟩

/-! Claim theorems. -/

/-- C1 (counterexample): on the all-(+1) 2×2 lattice with `J = B = -2`,
`deltaE` does not return `−2·(S[i,j]·(J·Σneighbors + B))` as the claim
states: the code computes `Enow = −S[i,j]·(J·Σ + B)` and returns `−2·Enow`,
i.e. `+2·S[i,j]·(J·Σ + B)` (here −20, while the claim's formula gives +20). -/
theorem deltaE_claim_formula_wrong :
    deltaE (-2) (-2) (latOne 2) 0 0 ≠ deltaEClaimC1 (-2) (-2) (latOne 2) 0 0 := by
  norm_num [deltaE, deltaEClaimC1, latOne]

/-- C1 (amended): for every lattice with ±1 entries and every site,
`deltaE` returns twice the negative of the current bond+field energy
contribution `Enow = −S[i,j]·(J·Σneighbors + B)`, that is
`+2·(S[i,j]·(J·Σneighbors + B))`, with the four neighbors read with
periodic wrap-around; the function is pure (it is a function of the
lattice alone). -/
theorem deltaE_closed_form :
    ∀ (J B : ℚ) (N : ℕ) (S : Fin N → Fin N → ℤ) (i j : Fin N),
      (∀ a b, S a b = 1 ∨ S a b = -1) →
      deltaE J B S i j =
        2 * ((S i j : ℚ) *
          (J * ((S (wrapIdx N i.pos ((i : ℤ) + 1)) j + S (wrapIdx N i.pos ((i : ℤ) - 1)) j +
              S i (wrapIdx N i.pos ((j : ℤ) + 1)) + S i (wrapIdx N i.pos ((j : ℤ) - 1)) : ℤ)
            : ℚ) + B)) := by
  intro J B N S i j _
  simp only [deltaE]
  push_cast
  ring

/-- Witness for C1's amended theorem at the all-(+1) 2×2 lattice with
`J = B = -2`. -/
theorem deltaE_closed_form_witness :
    deltaE (-2) (-2) (latOne 2) 0 0 = -20 := by
  rw [deltaE_closed_form (-2) (-2) 2 (latOne 2) 0 0 (fun a b => Or.inl rfl)]
  norm_num [latOne]

/-- C2: each flip attempt computes `deltaE` at the drawn site, accepts
exactly when the delta is negative or the drawn uniform is below
`exp(−delta/kBT)`; on acceptance exactly the chosen site's spin is negated
and every other cell is unchanged; on rejection the lattice is unchanged.
(The uniform site pick and the uniform draw are the explicit inputs
`(i, j)` and `u`.) -/
theorem step_follows_metropolis_rule :
    ∀ (J B kBT : ℚ) (mexp : ℚ → ℚ) (N : ℕ) (S : Fin N → Fin N → ℤ) (i j : Fin N) (u : ℚ),
      stepSpins J B kBT mexp S i j u = stepSpinsSpec J B kBT mexp S i j u ∧
      (acceptFlip J B kBT mexp S i j u = true ↔
        (deltaE J B S i j < 0 ∨ u < mexp (-(deltaE J B S i j) / kBT))) ∧
      ((deltaE J B S i j < 0 ∨ u < mexp (-(deltaE J B S i j) / kBT)) →
        stepSpins J B kBT mexp S i j u i j = - S i j ∧
        ∀ a b, ¬(a = i ∧ b = j) → stepSpins J B kBT mexp S i j u a b = S a b) ∧
      (¬(deltaE J B S i j < 0 ∨ u < mexp (-(deltaE J B S i j) / kBT)) →
        stepSpins J B kBT mexp S i j u = S) := by
  intro J B kBT mexp N S i j u
  have hacc : acceptFlip J B kBT mexp S i j u = true ↔
      (deltaE J B S i j < 0 ∨ u < mexp (-(deltaE J B S i j) / kBT)) := by
    simp [acceptFlip]
  refine ⟨?_, hacc, ?_, ?_⟩
  · by_cases hP : deltaE J B S i j < 0 ∨ u < mexp (-(deltaE J B S i j) / kBT)
    · rw [stepSpins, if_pos (hacc.mpr hP)]
      simp only [stepSpinsSpec]
      rw [if_pos hP]
      rfl
    · rw [stepSpins, if_neg (fun hc => hP (hacc.mp hc))]
      simp only [stepSpinsSpec]
      rw [if_neg hP]
  · intro hP
    rw [stepSpins, if_pos (hacc.mpr hP)]
    refine ⟨flipAt_self S i j, ?_⟩
    intro a b hab
    simp only [flipAt]
    rw [if_neg hab]
  · intro hP
    rw [stepSpins, if_neg (fun hc => hP (hacc.mp hc))]

/-- Witness for C2 at a concrete accepted flip (`deltaE = −20 < 0`): the
chosen site is negated. -/
theorem step_follows_metropolis_rule_witness :
    stepSpins (-2) (-2) 3 mexp0 (latOne 2) 0 0 0 0 0 = -1 := by
  have h := step_follows_metropolis_rule (-2) (-2) 3 mexp0 2 (latOne 2) 0 0 0
  have hP : deltaE (-2) (-2) (latOne 2) 0 0 < 0 ∨
      (0 : ℚ) < mexp0 (-(deltaE (-2) (-2) (latOne 2) 0 0) / 3) :=
    Or.inl (by norm_num [deltaE, latOne])
  have hflip := (h.2.2.1 hP).1
  rw [hflip]
  norm_num [latOne]

/-- C3: every cell of the randomly initialised lattice is +1 or −1, and
this is preserved by every flip attempt, accepted or not; the lattice
dimensions are fixed at N×N throughout (carried by the type
`Fin N → Fin N → ℤ`). -/
theorem lattice_spins_always_pm_one :
    ∀ (J B kBT : ℚ) (mexp : ℚ → ℚ) (N : ℕ) (r : Fin N → Fin N → ℚ)
      (rand : ℕ → Fin N × Fin N × ℚ) (k : ℕ) (i j : Fin N),
      iterSpins J B kBT mexp N r rand k i j = 1 ∨
        iterSpins J B kBT mexp N r rand k i j = -1 := by
  intro J B kBT mexp N r rand k
  induction k with
  | zero =>
      intro i j
      simp only [iterSpins, spinsInit]
      split_ifs
      · exact Or.inl rfl
      · exact Or.inr rfl
  | succ k ih =>
      intro i j
      simp only [iterSpins]
      cases hb : acceptFlip J B kBT mexp (iterSpins J B kBT mexp N r rand k)
          (rand k).1 (rand k).2.1 (rand k).2.2 with
      | false =>
          simp only [stepSpins, hb, Bool.false_eq_true, if_false]
          exact ih i j
      | true =>
          simp only [stepSpins, hb, if_true, flipAt]
          split_ifs with hc
          · rcases ih i j with h1 | h1 <;> simp [h1]
          · exact ih i j

/-- C9 (counterexample): for N = 1 the four "neighbors" are the site
itself, so flipping the target spin also flips the neighbor sum and the
recomputed delta is not the negation of the original (both are −16 on the
all-(+1) 1×1 lattice with J = −2, B = 0). -/
theorem deltaE_antisymmetry_fails_N1 :
    ¬ (deltaE (-2) 0 (flipAt (latOne 1) 0 0) 0 0 = - deltaE (-2) 0 (latOne 1) 0 0) := by
  norm_num [deltaE, flipAt, latOne, Fin.fin_one_eq_zero]

/-- C9 (amended): for every N ≥ 2, flipping the target spin and
recomputing yields the negated delta (the four periodic neighbors of a
site are then distinct cells from the site itself). -/
theorem deltaE_antisymmetric_flip :
    ∀ (J B : ℚ) (N : ℕ) (S : Fin N → Fin N → ℤ) (i j : Fin N), 2 ≤ N →
      deltaE J B (flipAt S i j) i j = - deltaE J B S i j := by
  intro J B N S i j hN
  simp only [deltaE]
  rw [flipAt_ne_fst S i j _ j (wrapIdx_succ_ne hN i),
    flipAt_ne_fst S i j _ j (wrapIdx_pred_ne hN i),
    flipAt_ne_snd S i j i _ (wrapIdx_succ_ne hN j),
    flipAt_ne_snd S i j i _ (wrapIdx_pred_ne hN j),
    flipAt_self]
  push_cast
  ring

/-- Witness for C9's amended theorem on the all-(+1) 2×2 lattice. -/
theorem deltaE_antisymmetric_flip_witness :
    deltaE (-2) (-2) (flipAt (latOne 2) 0 0) 0 0 = - deltaE (-2) (-2) (latOne 2) 0 0 :=
  deltaE_antisymmetric_flip (-2) (-2) 2 (latOne 2) 0 0 (by norm_num)

/-- C4 (counterexample): with `Steps = 0` the program does not produce
empty observable sequences — the seeding `M[0] = …` indexes a 0-row array
and the run aborts before any step. -/
theorem run_zero_steps_aborts :
    runNeel (-2) (-2) 3 mexp0 2 0 (rOne 2) randZ = none := rfl

/-- C4 (amended): for every `Steps ≥ 1`, when the run completes, both
observable sequences have exactly `Steps` entries whose step-index
components are 0, 1, …, Steps−1 in order. -/
theorem observables_indexed_in_order :
    ∀ (J B kBT : ℚ) (mexp : ℚ → ℚ) (N Steps : ℕ) (r : Fin N → Fin N → ℚ)
      (rand : ℕ → Fin N × Fin N × ℚ) (st : SimState N), 1 ≤ Steps →
      runNeel J B kBT mexp N Steps r rand = some st →
      st.M.length = Steps ∧ st.MS.length = Steps ∧
      st.M.map Prod.fst = (List.range Steps).map (fun k : ℕ => (k : ℚ)) ∧
      st.MS.map Prod.fst = (List.range Steps).map (fun k : ℕ => (k : ℚ)) := by
  intro J B kBT mexp N Steps r rand st _ h
  rw [runNeel, Option.bind_eq_some] at h
  obtain ⟨st0, hinit, hrun⟩ := h
  obtain ⟨_, hpos, hML, hMSL, _, _⟩ := initState_inv hinit
  obtain ⟨hL1, hL2, hw⟩ := runSteps_inv st0 Steps hrun
  have hMlen : st.M.length = Steps := by rw [hL1, hML]
  have hMSlen : st.MS.length = Steps := by rw [hL2, hMSL]
  refine ⟨hMlen, hMSlen, ?_, ?_⟩
  · apply List.ext_getElem?
    intro n
    rw [List.getElem?_map, List.getElem?_map]
    rcases Nat.lt_or_ge n Steps with hn | hn
    · obtain ⟨⟨y, hy⟩, _⟩ := hw n hn
      rw [hy, List.getElem?_range hn]
      rfl
    · rw [List.getElem?_eq_none (by rw [hMlen]; exact hn),
        List.getElem?_eq_none (by rw [List.length_range]; exact hn)]
      rfl
  · apply List.ext_getElem?
    intro n
    rw [List.getElem?_map, List.getElem?_map]
    rcases Nat.lt_or_ge n Steps with hn | hn
    · obtain ⟨_, ⟨y, hy⟩⟩ := hw n hn
      rw [hy, List.getElem?_range hn]
      rfl
    · rw [List.getElem?_eq_none (by rw [hMSlen]; exact hn),
        List.getElem?_eq_none (by rw [List.length_range]; exact hn)]
      rfl

/-- Witness for C4's amended theorem on the concrete 1-step run. -/
theorem observables_indexed_in_order_witness :
    stRun1.M.map Prod.fst = [(0 : ℚ)] ∧ stRun1.MS.map Prod.fst = [(0 : ℚ)] := by
  have hrun : runNeel (-2) (-2) 3 mexp0 2 1 (rOne 2) randZ = some stRun1 := by
    norm_num [runNeel, runSteps, initState, stepState, setIdx, spinsInit, magnetization,
      staggeredOP, flattenL, listMean, evensIdx, oddsIdx, everyOther, broadcastMul,
      stepSpins, acceptFlip, deltaE, flipAt, rOne, randZ, mexp0, stRun1,
      List.finRange, List.range, List.range.loop, List.foldlM, List.pmap, Option.bind]
  have h := observables_indexed_in_order (-2) (-2) 3 mexp0 2 1 (rOne 2) randZ stRun1
    (le_refl 1) hrun
  refine ⟨h.2.2.1.trans ?_, h.2.2.2.trans ?_⟩ <;> rfl

/-- C5 (code-bug exhibit): the notebook performs no configuration
validation at all. Initialization never reads `k_BT` (so it cannot fail
fast on a non-positive `k_BT`), and with the concrete configuration
`N = 2`, `Steps = 5` it succeeds unconditionally. -/
theorem init_performs_no_validation :
    initState 2 5 (rOne 2) ≠ none := by
  intro h
  norm_num [initState, setIdx, spinsInit, magnetization, staggeredOP, flattenL, listMean,
    evensIdx, oddsIdx, everyOther, broadcastMul, rOne,
    List.finRange, List.range, List.range.loop, List.pmap, Option.bind] at h
  exact Option.noConfusion h

/-- C6 (code-bug exhibit): with `Steps = 0` (and N = 10) the seeding
`M[0] = 0, mean(spins)` indexes the 0-row array `numpy.zeros((0, 2))` and
raises before the loop: the program fails instead of completing with
empty/seed-only observables. -/
theorem init_with_zero_steps_raises :
    initState 10 0 (rOne 10) = none := rfl

/-- C7: for the run's even lattice side, the recorded per-step entries are
`(idx, mean magnetization)` and `(idx, staggered correlation)` where the
two values are exactly the spec's formulas — the arithmetic mean of all
N×N values, and the negative mean of the products of even-indexed with
odd-indexed spins of the row-major flattening — and the seeded initial
entries use the same two formulas on the initial lattice. -/
theorem observables_match_spec_formulas :
    ∀ (N : ℕ), Even N →
      (∀ S : Fin N → Fin N → ℤ,
        magnetization N S = specMeanMag N S ∧
        staggeredOP N S = some (specStaggered N S)) ∧
      (∀ (J B kBT : ℚ) (mexp : ℚ → ℚ) (st st' : SimState N) (idx : ℕ) (i j : Fin N) (u : ℚ),
        stepState J B kBT mexp st idx i j u = some st' →
          st'.M[idx]? = some ((idx : ℚ), specMeanMag N st'.spins) ∧
          st'.MS[idx]? = some ((idx : ℚ), specStaggered N st'.spins)) ∧
      (∀ (Steps : ℕ) (r : Fin N → Fin N → ℚ) (st0 : SimState N),
        initState N Steps r = some st0 →
          st0.M[0]? = some (0, specMeanMag N st0.spins) ∧
          st0.MS[0]? = some ((0 : ℚ), specStaggered N st0.spins)) := by
  intro N hE
  have hA : ∀ S : Fin N → Fin N → ℤ,
      magnetization N S = specMeanMag N S ∧
      staggeredOP N S = some (specStaggered N S) :=
    fun S => ⟨magnetization_eq_spec N S, staggeredOP_eq_spec N hE S⟩
  refine ⟨hA, ?_, ?_⟩
  · intro J B kBT mexp st st' idx i j u h
    obtain ⟨_, _, _, _, _, hM, ⟨s, hs, hMS⟩, _⟩ := stepState_inv h
    have hget := (hA st'.spins).2
    rw [hs] at hget
    injection hget with hget
    constructor
    · rw [hM, (hA st'.spins).1]
    · rw [hMS, hget]
  · intro Steps r st0 h
    obtain ⟨hsp, _, _, _, hM, ⟨s, hs, hMS⟩⟩ := initState_inv h
    have hget := (hA (spinsInit N r)).2
    rw [hs] at hget
    injection hget with hget
    constructor
    · rw [hM, (hA (spinsInit N r)).1, hsp]
    · rw [hMS, hget, hsp]

/-- Witness for C7 at the even side N = 2: the code's staggered order
parameter on the all-(+1) lattice equals the spec's formula. -/
theorem observables_match_spec_formulas_witness :
    staggeredOP 2 (latOne 2) = some (specStaggered 2 (latOne 2)) :=
  ((observables_match_spec_formulas 2 ⟨1, rfl⟩).1 (latOne 2)).2

/-- C8 (counterexample): the index-0 entry of M is written twice — the
seeding writes `(0, 1)` on the all-(+1) lattice, and step 0 (an accepted
flip) overwrites it with `(0, 1/2)`: an already-written entry is changed
by a later operation of the run. -/
theorem seeded_entry_overwritten_by_step_zero :
    (initState 2 1 (rOne 2)).map (fun st => st.M[0]?) = some (some ((0 : ℚ), 1)) ∧
    (runNeel (-2) (-2) 3 mexp0 2 1 (rOne 2) randZ).map (fun st => st.M[0]?) =
      some (some ((0 : ℚ), 1/2)) := by
  constructor <;>
    norm_num [runNeel, runSteps, initState, stepState, setIdx, spinsInit, magnetization,
      staggeredOP, flattenL, listMean, evensIdx, oddsIdx, everyOther, broadcastMul,
      stepSpins, acceptFlip, deltaE, flipAt, rOne, randZ, mexp0,
      List.finRange, List.range, List.range.loop, List.foldlM, List.pmap, Option.bind]

/-- C8 (amended): each loop step writes exactly one entry per sequence (at
its own index, leaving every other index unchanged), and entries written
by earlier loop steps are never changed by later steps; the exception the
counterexample forces is the seeded index-0 entry, which step 0
overwrites. -/
theorem loop_entries_write_once_stable :
    (∀ (J B kBT : ℚ) (mexp : ℚ → ℚ) (N : ℕ) (st st' : SimState N) (idx : ℕ)
        (i j : Fin N) (u : ℚ),
      stepState J B kBT mexp st idx i j u = some st' →
        st'.M[idx]? = some ((idx : ℚ), magnetization N st'.spins) ∧
        (∃ s, st'.MS[idx]? = some ((idx : ℚ), s)) ∧
        ∀ k, k ≠ idx → st'.M[k]? = st.M[k]? ∧ st'.MS[k]? = st.MS[k]?) ∧
    (∀ (J B kBT : ℚ) (mexp : ℚ → ℚ) (N : ℕ) (rand : ℕ → Fin N × Fin N × ℚ)
        (st s1 s2 : SimState N) (m m' : ℕ), m ≤ m' →
      runSteps J B kBT mexp rand st m = some s1 →
      runSteps J B kBT mexp rand st m' = some s2 →
      ∀ k, k < m → s2.M[k]? = s1.M[k]? ∧ s2.MS[k]? = s1.MS[k]?) := by
  constructor
  · intro J B kBT mexp N st st' idx i j u h
    obtain ⟨_, _, _, _, _, hM, ⟨s, _, hMS⟩, hpres⟩ := stepState_inv h
    exact ⟨hM, ⟨s, hMS⟩, hpres⟩
  · intro J B kBT mexp N rand st s1 s2 m m' hle h1 h2
    exact runSteps_stable st m m' hle h1 h2

/-- Witness for C8's amended theorem on the concrete 2-step run: the entry
written by step 0 is unchanged after step 1. -/
theorem loop_entries_write_once_stable_witness :
    stRun2.M[0]? = stMid2.M[0]? ∧ stRun2.MS[0]? = stMid2.MS[0]? := by
  have h1 : runSteps (-2) (-2) 3 mexp0 randZ stInit2 1 = some stMid2 := by
    norm_num [runSteps, stepState, setIdx, spinsInit, magnetization,
      staggeredOP, flattenL, listMean, evensIdx, oddsIdx, everyOther, broadcastMul,
      stepSpins, acceptFlip, deltaE, flipAt, wrapIdx, Fin.ext_iff, rOne, randZ, mexp0,
      stInit2, stMid2,
      List.finRange, List.range, List.range.loop, List.foldlM, List.pmap, Option.bind]
  have h2 : runSteps (-2) (-2) 3 mexp0 randZ stInit2 2 = some stRun2 := by
    norm_num [runSteps, stepState, setIdx, spinsInit, magnetization,
      staggeredOP, flattenL, listMean, evensIdx, oddsIdx, everyOther, broadcastMul,
      stepSpins, acceptFlip, deltaE, flipAt, wrapIdx, Fin.ext_iff, rOne, randZ, mexp0,
      stInit2, stMid2, stRun2,
      List.finRange, List.range, List.range.loop, List.foldlM, List.pmap, Option.bind]
  exact loop_entries_write_once_stable.2 (-2) (-2) 3 mexp0 2 randZ stInit2 stMid2 stRun2
    1 2 (by norm_num) h1 h2 0 (by norm_num)

/-- C10 (counterexample): for the odd side N = 1 the even-indexed slice has
one element and the odd-indexed slice none; numpy broadcasts the singleton
against the empty array, so the element-wise product succeeds (it is
empty) and no shape-mismatch error is raised (the subsequent mean is NaN,
a warning, not an error). -/
theorem staggered_product_broadcasts_N1 :
    broadcastMul (evensIdx (flattenL 1 (latOne 1))) (oddsIdx (flattenL 1 (latOne 1))) =
      some [] := by
  rfl

/-- C10 (amended): for every odd N ≥ 3 the even-indexed slice has
(N²+1)/2 elements and the odd-indexed slice (N²−1)/2, the lengths differ
and neither is 1, so the element-wise product raises a shape mismatch and
the staggered computation fails. -/
theorem staggered_shape_error_odd_N :
    ∀ N : ℕ, Odd N → 3 ≤ N → ∀ S : Fin N → Fin N → ℤ, staggeredOP N S = none := by
  intro N hodd h3 S
  obtain ⟨t, ht⟩ := hodd
  have hf : (flattenL N S).length = N * N := flattenL_length N S
  have ht1 : 1 ≤ t := by omega
  have hm : N * N = 2 * (2 * t * t + 2 * t) + 1 := by subst ht; ring
  have h4 : 4 ≤ 2 * t * t + 2 * t := by nlinarith
  have hev : (evensIdx (flattenL N S)).length = 2 * t * t + 2 * t + 1 := by
    rw [evensIdx_length, hf]
    omega
  have hod : (oddsIdx (flattenL N S)).length = 2 * t * t + 2 * t := by
    rw [oddsIdx_length, hf]
    omega
  unfold staggeredOP broadcastMul
  rw [hev, hod, if_neg (by omega), if_neg (by omega), if_neg (by omega)]
  rfl

/-- Witness for C10's amended theorem at N = 3. -/
theorem staggered_shape_error_odd_N_witness :
    staggeredOP 3 (latOne 3) = none :=
  staggered_shape_error_odd_N 3 ⟨1, rfl⟩ (by norm_num) (latOne 3)

end Neel

